import Mathlib

/-!
Shallow embedding of the sequence-matching core of the hack-solver repository
(`src/matcher.js`, band merging from the projection-based grid detector), with
theorems checking the natural-language specification against the code.

Conventions of the embedding:
* JS arrays of strings become `List String`; out-of-range reads (which the
  source never performs on its reachable paths) are modelled with `List.getD`.
* JS numbers are exact rationals `ℚ` where the source only adds, compares and
  divides rationals, and reals `ℝ` where the source takes square roots
  (`ncc`).  `Infinity` sentinels become `Option` values (`none` = `Infinity`).
* `bestPos = -1` is kept as an `Int` exactly as in the source.
-/

namespace Matcher

/-! ### `estimateColumns` (src/matcher.js, lines 171-178)

The JS loop `for (let c = 10; c >= 7; c--)` is unrolled into the four
divisibility tests it performs. -/

def estimateColumns (totalCells : ℕ) : ℕ :=
  if 75 ≤ totalCells ∧ totalCells ≤ 85 then 10
  else if 55 ≤ totalCells ∧ totalCells ≤ 65 then 10
  else if totalCells % 10 = 0 then 10
  else if totalCells % 9 = 0 then 9
  else if totalCells % 8 = 0 then 8
  else if totalCells % 7 = 0 then 7
  else 10

/-! ### Text-mode matching (`findMatchByText`, src/matcher.js lines 185-265) -/

/-- The exact-pass test at one start position: all target codes must equal the
grid codes at `(pos + t) % numCodes` (source lines 193-201). -/
def exactAt (targetCodes gridCodes : List String) (pos : ℕ) : Bool :=
  (List.range targetCodes.length).all fun t =>
    decide (gridCodes.getD ((pos + t) % gridCodes.length) "" = targetCodes.getD t "")

/-- Number of differing character positions between two equal-length codes
(source lines 227-230). -/
def charDiffCount (a b : List Char) : ℕ :=
  (List.range a.length).countP fun c => decide (a.getD c ' ' ≠ b.getD c ' ')

/-- Per-code mismatch cost of the fuzzy pass (source lines 223-238). -/
def codeCost (a b : String) : ℚ :=
  if a = b then 0
  else if a.length = b.length then (charDiffCount a.data b.data : ℚ)
  else if a.length < b.length ∧ a.data.isPrefixOf b.data = true then 1/2
  else if 0 < a.length ∧ 0 < b.length ∧ a.data.getD 0 ' ' = b.data.getD 0 ' ' then 1
  else 2

/-- Total fuzzy cost of one start position: the accumulation loop of source
lines 220-239. -/
def totalCost (targetCodes gridCodes : List String) (pos : ℕ) : ℚ :=
  (List.range targetCodes.length).foldl
    (fun acc t =>
      acc + codeCost (targetCodes.getD t "") (gridCodes.getD ((pos + t) % gridCodes.length) ""))
    0

/-- The three mutable locals of the fuzzy scan (source lines 216-218);
`none` models the initial `Infinity`. -/
structure FuzzyAcc where
  bestPos : ℤ
  bestScore : Option ℚ
  secondBest : Option ℚ
deriving DecidableEq

/-- `x < y` where `y` may be `Infinity` (`none`). -/
def ltInf (x : ℚ) (y : Option ℚ) : Bool :=
  match y with
  | none => true
  | some v => decide (x < v)

/-- One iteration of the fuzzy scan loop (source lines 240-246); the JS local
`totalScore` is inlined as `totalCost _ _ pos`. -/
def fuzzyStep (targetCodes gridCodes : List String) (st : FuzzyAcc) (pos : ℕ) : FuzzyAcc :=
  if ltInf (totalCost targetCodes gridCodes pos) st.bestScore then
    ⟨Int.ofNat pos, some (totalCost targetCodes gridCodes pos), st.bestScore⟩
  else if ltInf (totalCost targetCodes gridCodes pos) st.secondBest then
    ⟨st.bestPos, st.bestScore, some (totalCost targetCodes gridCodes pos)⟩
  else st

/-- The whole fuzzy scan (source lines 216-247). -/
def fuzzyScan (targetCodes gridCodes : List String) : FuzzyAcc :=
  (List.range gridCodes.length).foldl (fuzzyStep targetCodes gridCodes) ⟨-1, none, none⟩

/-- Result record of text-mode matching (subset of the JS object literal). -/
structure TextMatch where
  position : ℕ
  row : ℕ
  col : ℕ
  cols : ℕ
  score : ℚ
  confidence : ℚ
deriving DecidableEq

/-- Acceptance step after the fuzzy scan (source lines 249-264).  The JS guard
`bestPos >= 0 && bestScore <= 3` is the pattern match (`bestScore = none`
models `Infinity`, for which `Infinity <= 3` is false) plus the `b ≤ 3` test.
The `secondBest = none` confidence case (`Infinity` gap) is unreachable when
the grid has ≥ 2 codes; JS would produce confidence 1 there via
`min(1, Infinity)`. -/
def fuzzyResult (numTargets numCodes : ℕ) (st : FuzzyAcc) : Option TextMatch :=
  match st.bestPos, st.bestScore with
  | Int.ofNat bp, some b =>
    if b ≤ 3 then
      some ⟨bp, bp / estimateColumns numCodes + 1, bp % estimateColumns numCodes + 1,
        estimateColumns numCodes, b,
        match st.secondBest with
        | none => 1
        | some s => if 0 < s - b then max (1/10) (min 1 ((s - b) / (numTargets : ℚ))) else 1/10⟩
    else none
  | _, _ => none

/-- `findMatchByText` (source lines 185-265).  The JS null-container check on
line 186 has no counterpart for Lean lists, which always exist. -/
def findMatchByText (targetCodes gridCodes : List String) : Option TextMatch :=
  if targetCodes.length < 2 ∨ gridCodes.length < 4 then none
  else
    match (List.range gridCodes.length).find? (fun pos => exactAt targetCodes gridCodes pos) with
    | some pos =>
      some ⟨pos, pos / estimateColumns gridCodes.length + 1,
        pos % estimateColumns gridCodes.length + 1, estimateColumns gridCodes.length, 0, 1⟩
    | none => fuzzyResult targetCodes.length gridCodes.length (fuzzyScan targetCodes gridCodes)

/-- Loop invariant of the fuzzy scan over the processed position list `l`:
either nothing was processed and the accumulator is untouched, or `bestPos`
holds a processed position whose cost is `bestScore`; `bestScore` is minimal
over the processed costs; `secondBest` is at least `bestScore`; and after two
iterations `secondBest` is finite. -/
def FuzzyInv (tc gc : List String) (l : List ℕ) (st : FuzzyAcc) : Prop :=
  ((st.bestPos = -1 ∧ st.bestScore = none ∧ st.secondBest = none ∧ l = []) ∨
    (∃ p, p ∈ l ∧ st.bestPos = Int.ofNat p ∧ st.bestScore = some (totalCost tc gc p)))
  ∧ (∀ b, st.bestScore = some b → ∀ p ∈ l, b ≤ totalCost tc gc p)
  ∧ (∀ b s, st.bestScore = some b → st.secondBest = some s → b ≤ s)
  ∧ (2 ≤ l.length → st.secondBest ≠ none)

/-- The per-code cost exactly as the C2 sentence of the spec words it
(cases in the spec's order of precedence): equal codes cost 0, equal-length
codes cost the Hamming character-distance, a strictly shorter target that is
a string prefix of the grid code costs 0.5, non-empty codes sharing their
first character but otherwise different cost 1, everything else costs 2. -/
def claimCodeCost (a b : String) : ℚ :=
  if a = b then 0
  else if a.length = b.length then
    (((Finset.range a.length).filter fun c => a.data.getD c ' ' ≠ b.data.getD c ' ').card : ℚ)
  else if a.length < b.length ∧ a.data <+: b.data then 1/2
  else if a.data ≠ [] ∧ b.data ≠ [] ∧ a.data.head? = b.data.head? then 1
  else 2

/-! ### Pixel-ensemble matching (`findMatch`, src/matcher.js lines 6-169) -/

/-- Midpoint-threshold binarization of a grayscale cell (source lines 6-18).
The threshold `(min + max) / 2` is a JS number, hence an exact rational. -/
def toBinary (cell : List ℕ) : List ℕ :=
  let mn := cell.foldl min 255
  let mx := cell.foldl max 0
  cell.map fun v => if ((mn + mx : ℕ) : ℚ) / 2 < (v : ℚ) then 255 else 0

/-- Normalized pixel Hamming distance (source lines 25-32), with total `ℚ`
division: on two empty arrays `0 / 0` is `0` here, whereas the JS source
produces `NaN`.  This variant is used on the pixel path, whose samples are
nonempty; `hammingDistJs` below models the division honestly. -/
def hammingDist (a b : List ℕ) : ℚ :=
  if a.length ≠ b.length then 1
  else (((List.range a.length).countP fun i => decide (a.getD i 0 ≠ b.getD i 0) : ℕ) : ℚ) /
    (a.length : ℚ)

/-- JS division as reachable from `hammingDist`: JS `0 / 0` is `NaN`,
modelled as `none`.  (The dividend `diff` never exceeds the divisor
`a.length`, so the JS `x / 0 = Infinity` case with `x ≠ 0` cannot occur
here.) -/
def jsDiv (x y : ℚ) : Option ℚ := if y = 0 then none else some (x / y)

/-- `hammingDist` (source lines 25-32) with the final division modelled
NaN-honestly: on two empty arrays the source computes `0 / 0 = NaN`
(`none` here). -/
def hammingDistJs (a b : List ℕ) : Option ℚ :=
  if a.length ≠ b.length then some 1
  else jsDiv (((List.range a.length).countP fun i => decide (a.getD i 0 ≠ b.getD i 0) : ℕ) : ℚ)
    (a.length : ℚ)

/-- Per-array mean of `ncc` (source lines 41-47). -/
noncomputable def nccMean (a : List ℕ) : ℝ :=
  (∑ i ∈ Finset.range a.length, (a.getD i 0 : ℝ)) / a.length

/-- Numerator accumulator of `ncc` (source lines 49-53); the loop runs over
`n = a.length`, which equals `b.length` whenever `ncc` reaches it. -/
noncomputable def nccNum (a b : List ℕ) : ℝ :=
  ∑ i ∈ Finset.range a.length,
    ((a.getD i 0 : ℝ) - nccMean a) * ((b.getD i 0 : ℝ) - nccMean b)

/-- Variance accumulator of `ncc` (`denA`/`denB`, source lines 49-56). -/
noncomputable def nccDen (a : List ℕ) : ℝ :=
  ∑ i ∈ Finset.range a.length,
    ((a.getD i 0 : ℝ) - nccMean a) * ((a.getD i 0 : ℝ) - nccMean a)

/-- Normalized cross-correlation (source lines 38-59).  Needs `ℝ` for the
`Math.sqrt`; division by the zero denominator is guarded exactly as in the
source (`den === 0 ? 0 : num / den`). -/
noncomputable def ncc (a b : List ℕ) : ℝ :=
  if a.length ≠ b.length then -1
  else if Real.sqrt (nccDen a * nccDen b) = 0 then 0
  else nccNum a b / Real.sqrt (nccDen a * nccDen b)

/-- 2×2-block averaging of a 32×32 cell down to 16×16 (source lines 65-74);
`>> 2` is integer division by 4. -/
def downsample2x (pixels : List ℕ) : List ℕ :=
  (List.range 256).map fun k =>
    let y := k / 16
    let x := k % 16
    let idx := y * 2 * 32 + x * 2
    (pixels.getD idx 0 + pixels.getD (idx + 1) 0 + pixels.getD (idx + 32) 0 +
      pixels.getD (idx + 33) 0) / 4

/-- The ensemble score of one candidate start position (inner loop of source
lines 108-126): summed over `min 4 numTargets` offsets. -/
noncomputable def scoreAt (targetCells gridCells : List (List ℕ)) (pos : ℕ) : ℝ :=
  (List.range (min 4 targetCells.length)).foldl
    (fun acc t =>
      let tcell := targetCells.getD t []
      let gcell := gridCells.getD ((pos + t) % gridCells.length) []
      acc + ((1 - ncc tcell gcell) + (1 - ncc (downsample2x tcell) (downsample2x gcell)) +
        ((hammingDist (toBinary tcell) (toBinary gcell) : ℚ) : ℝ) * (1/2)))
    0

/-- One slot of the top-3 tracker (source lines 129-133); `none` models the
initial `Infinity` score. -/
structure TopEntry where
  pos : ℕ
  score : Option ℝ

/-- The three top slots. -/
structure Top3 where
  t0 : TopEntry
  t1 : TopEntry
  t2 : TopEntry

/-- Strict `<` on possibly-`Infinity` scores (JS number comparison where
`none` is `Infinity`). -/
def oLt : Option ℝ → Option ℝ → Prop
  | none, _ => False
  | some _, none => True
  | some a, some b => a < b

noncomputable instance : DecidableRel oLt := fun x y =>
  match x, y with
  | none, _ => isFalse id
  | some _, none => isTrue trivial
  | some a, some b => inferInstanceAs (Decidable (a < b))

/-- One iteration of the top-3 insertion loop (source lines 135-145):
overwrite slot 2 with the new entry, then bubble it up with at most two
conditional swaps.  The two swaps of the source are compiled into the four
possible outcomes: if the new entry beats slot 1 it ends in slot 0 or 1
(first branch pair); otherwise it stays in slot 2 and the old slots 0 and 1
are conditionally swapped (second pair, dead when they are already
ordered). -/
noncomputable def topStep (sc : ℕ → ℝ) (tp : Top3) (i : ℕ) : Top3 :=
  if oLt (some (sc i)) tp.t2.score then
    if oLt (some (sc i)) tp.t1.score then
      if oLt (some (sc i)) tp.t0.score then ⟨⟨i, some (sc i)⟩, tp.t0, tp.t1⟩
      else ⟨tp.t0, ⟨i, some (sc i)⟩, tp.t1⟩
    else
      if oLt tp.t1.score tp.t0.score then ⟨tp.t1, tp.t0, ⟨i, some (sc i)⟩⟩
      else ⟨tp.t0, tp.t1, ⟨i, some (sc i)⟩⟩
  else tp

/-- The whole top-3 scan over all start positions. -/
noncomputable def topScan (sc : ℕ → ℝ) (n : ℕ) : Top3 :=
  (List.range n).foldl (topStep sc) ⟨⟨0, none⟩, ⟨0, none⟩, ⟨0, none⟩⟩

/-- One entry of the returned `top3` array (source lines 160-167). -/
structure PixelEntry where
  pos : ℕ
  row : ℕ
  col : ℕ
  score : Option ℝ

/-- Result record of pixel-ensemble matching (source lines 153-168). -/
structure PixelMatch where
  position : ℕ
  row : ℕ
  col : ℕ
  cols : ℕ
  score : Option ℝ
  confidence : ℝ
  top3 : List PixelEntry

/-- `findMatch` (source lines 85-169).  The JS locals `top` and `cols` are
inlined.  The `confidence` fallback `0` for a missing (`Infinity`) top-2
score is unreachable: the guard forces at least 4 grid cells, so all three
top slots are finite after the scan (in JS that dead path would produce
`NaN` via `Infinity/Infinity`). -/
noncomputable def findMatch (targetCells gridCells : List (List ℕ)) : Option PixelMatch :=
  if targetCells.length < 4 ∨ gridCells.length < 4 then none
  else
    some ⟨(topScan (scoreAt targetCells gridCells) gridCells.length).t0.pos,
      (topScan (scoreAt targetCells gridCells) gridCells.length).t0.pos /
        estimateColumns gridCells.length + 1,
      (topScan (scoreAt targetCells gridCells) gridCells.length).t0.pos %
        estimateColumns gridCells.length + 1,
      estimateColumns gridCells.length,
      (topScan (scoreAt targetCells gridCells) gridCells.length).t0.score,
      (match (topScan (scoreAt targetCells gridCells) gridCells.length).t0.score,
          (topScan (scoreAt targetCells gridCells) gridCells.length).t1.score with
        | some s0, some s1 => if 0 < s1 then min 1 ((s1 - s0) / s1) else 0
        | _, _ => 0),
      [(topScan (scoreAt targetCells gridCells) gridCells.length).t0,
        (topScan (scoreAt targetCells gridCells) gridCells.length).t1,
        (topScan (scoreAt targetCells gridCells) gridCells.length).t2].map fun e =>
          ⟨e.pos, e.pos / estimateColumns gridCells.length + 1,
            e.pos % estimateColumns gridCells.length + 1, e.score⟩⟩

/-- The scores of all start positions, ascending (specification-side view of
"the top-3 lowest-scoring positions"). -/
noncomputable def sortedScores (sc : ℕ → ℝ) (l : List ℕ) : List ℝ :=
  (l.map sc).insertionSort (· ≤ ·)

/-- Pads a list of at most 3 scores with `Infinity` (`none`) slots. -/
def pad3 (l : List ℝ) : List (Option ℝ) := l.map some ++ List.replicate (3 - l.length) none

/-- A finite top-3 slot must record a processed position with its own score. -/
def EntryOk (sc : ℕ → ℝ) (l : List ℕ) (e : TopEntry) : Prop :=
  ∀ s, e.score = some s → e.pos ∈ l ∧ s = sc e.pos

/-- Loop invariant of the top-3 scan over the processed position list `l`:
the three slot scores are exactly the three smallest processed scores (in
ascending order, padded with `Infinity`), and every finite slot records a
processed position together with its own score. -/
def TopInv (sc : ℕ → ℝ) (l : List ℕ) (tp : Top3) : Prop :=
  [tp.t0.score, tp.t1.score, tp.t2.score] = pad3 ((sortedScores sc l).take 3)
  ∧ EntryOk sc l tp.t0 ∧ EntryOk sc l tp.t1 ∧ EntryOk sc l tp.t2

end Matcher

namespace Detector

/-! ### Row-band merging (src/unnamed/part_003, lines 167-209) -/

/-- A projection band.  The source field `end` is called `stop` here (`end`
is a Lean keyword); merged bands are created with `center = 0` and receive
their real center afterwards, mirroring the source's late `forEach`. -/
structure Band where
  start : ℚ
  stop : ℚ
  center : ℚ
deriving DecidableEq

/-- Gaps between consecutive bands (source lines 171-174). -/
def bandGaps (bands : List Band) : List ℚ :=
  (bands.zip bands.tail).map fun p => p.2.start - p.1.stop

/-- Ratio-jump detection over the ascending gap list (source lines 179-189):
returns `(maxRatio, threshold)`. -/
def gapScan (sorted : List ℚ) : ℚ × ℚ :=
  (sorted.zip sorted.tail).foldl
    (fun acc p =>
      if 0 < p.1 then
        if acc.1 < p.2 / p.1 then (p.2 / p.1, (p.1 + p.2) / 2) else acc
      else acc)
    (0, sorted.getLastD 0)

/-- One iteration of the merge loop (source lines 196-203); the accumulator
is kept reversed so the JS `merged[merged.length - 1]` is the head. -/
def mergeStep (threshold : ℚ) (acc : List Band) (b : Band) : List Band :=
  match acc with
  | [] => [⟨b.start, b.stop, 0⟩]
  | m :: ms =>
    if b.start - m.stop ≤ threshold then ⟨m.start, b.stop, 0⟩ :: ms
    else ⟨b.start, b.stop, 0⟩ :: m :: ms

/-- The merged band list for a given threshold (source lines 195-204). -/
def mergedOf (bands : List Band) (threshold : ℚ) : List Band :=
  match bands with
  | [] => []
  | b0 :: rest =>
    ((rest.foldl (mergeStep threshold) [⟨b0.start, b0.stop, 0⟩]).reverse).map
      fun m => ⟨m.start, m.stop, (m.start + m.stop) / 2⟩

/-- `mergeBands` (source lines 167-209): keep short lists, require a ≥2×
ratio jump, merge, and fall back to the input if fewer than 8 bands remain. -/
def mergeBands (bands : List Band) : List Band :=
  if bands.length ≤ 8 then bands
  else if (gapScan ((bandGaps bands).insertionSort (· ≤ ·))).1 < 2 then bands
  else if (mergedOf bands (gapScan ((bandGaps bands).insertionSort (· ≤ ·))).2).length < 8 then
    bands
  else mergedOf bands (gapScan ((bandGaps bands).insertionSort (· ≤ ·))).2

end Detector

namespace Matcher

/-- Concrete 80-code grid used to witness the C6 scenario: the target
`["28","98","94","55"]` sits at indices 43-46, every other cell is unique. -/
def c6Grid : List String :=
  ["g0", "g1", "g2", "g3", "g4", "g5", "g6", "g7", "g8", "g9", "g10", "g11", "g12", "g13",
   "g14", "g15", "g16", "g17", "g18", "g19", "g20", "g21", "g22", "g23", "g24", "g25", "g26",
   "g27", "g28", "g29", "g30", "g31", "g32", "g33", "g34", "g35", "g36", "g37", "g38", "g39",
   "g40", "g41", "g42", "28", "98", "94", "55", "g47", "g48", "g49", "g50", "g51", "g52",
   "g53", "g54", "g55", "g56", "g57", "g58", "g59", "g60", "g61", "g62", "g63", "g64", "g65",
   "g66", "g67", "g68", "g69", "g70", "g71", "g72", "g73", "g74", "g75", "g76", "g77", "g78",
   "g79"]

/-! ### C5: column-count rule -/

/-- **C5 (counterexample).** A grid of 77 codes is not the standard 80-code
grid, and the largest divisor of 77 that is ≤ 10 and ≥ 7 is 7, yet the code
returns 10 (77 falls in the 75-85 window of line 172). -/
theorem c5_counterexample :
    estimateColumns 77 = 10 ∧ (77 : ℕ) ≠ 80 ∧ (7 : ℕ) ∣ 77 ∧
      (∀ d, d < 11 → 7 ≤ d → d ∣ 77 → d ≤ 7) ∧ estimateColumns 77 ≠ 7 := by
  decide

/-- **C5 (amended).** The column count is 10 whenever the grid length lies in
75-85 or in 55-65; for any other length it is the largest divisor of the
length that is ≤ 10 and ≥ 7 when such a divisor exists, and 10 otherwise. -/
theorem c5_columns_amended (n : ℕ) :
    ((75 ≤ n ∧ n ≤ 85) ∨ (55 ≤ n ∧ n ≤ 65) → estimateColumns n = 10) ∧
    (¬((75 ≤ n ∧ n ≤ 85) ∨ (55 ≤ n ∧ n ≤ 65)) →
      ((∃ c, 7 ≤ c ∧ c ≤ 10 ∧ c ∣ n) →
        7 ≤ estimateColumns n ∧ estimateColumns n ≤ 10 ∧ estimateColumns n ∣ n ∧
          ∀ d, 7 ≤ d → d ≤ 10 → d ∣ n → d ≤ estimateColumns n) ∧
      ((¬∃ c, 7 ≤ c ∧ c ≤ 10 ∧ c ∣ n) → estimateColumns n = 10)) := by
  unfold estimateColumns
  constructor
  · intro h
    rcases h with h | h
    · rw [if_pos h]
    · by_cases h1 : 75 ≤ n ∧ n ≤ 85
      · rw [if_pos h1]
      · rw [if_neg h1, if_pos h]
  · intro hw
    have hw1 : ¬(75 ≤ n ∧ n ≤ 85) := fun h => hw (Or.inl h)
    have hw2 : ¬(55 ≤ n ∧ n ≤ 65) := fun h => hw (Or.inr h)
    rw [if_neg hw1, if_neg hw2]
    constructor
    · intro hex
      by_cases h10 : n % 10 = 0
      · rw [if_pos h10]
        exact ⟨by norm_num, le_refl 10, Nat.dvd_of_mod_eq_zero h10, fun d _ hd _ => hd⟩
      · rw [if_neg h10]
        by_cases h9 : n % 9 = 0
        · rw [if_pos h9]
          refine ⟨by norm_num, by norm_num, Nat.dvd_of_mod_eq_zero h9, ?_⟩
          intro d h7 hd10 hdvd
          interval_cases d <;> omega
        · rw [if_neg h9]
          by_cases h8 : n % 8 = 0
          · rw [if_pos h8]
            refine ⟨by norm_num, by norm_num, Nat.dvd_of_mod_eq_zero h8, ?_⟩
            intro d h7 hd10 hdvd
            interval_cases d <;> omega
          · rw [if_neg h8]
            by_cases h7 : n % 7 = 0
            · rw [if_pos h7]
              refine ⟨le_refl 7, by norm_num, Nat.dvd_of_mod_eq_zero h7, ?_⟩
              intro d hd7 hd10 hdvd
              interval_cases d <;> omega
            · rw [if_neg h7]
              obtain ⟨c, hc7, hc10, hcd⟩ := hex
              exfalso
              interval_cases c <;> omega
    · intro hno
      have h10 : ¬n % 10 = 0 := fun h => hno ⟨10, by norm_num, le_refl 10, Nat.dvd_of_mod_eq_zero h⟩
      have h9 : ¬n % 9 = 0 := fun h => hno ⟨9, by norm_num, by norm_num, Nat.dvd_of_mod_eq_zero h⟩
      have h8 : ¬n % 8 = 0 := fun h => hno ⟨8, by norm_num, by norm_num, Nat.dvd_of_mod_eq_zero h⟩
      have h7 : ¬n % 7 = 0 := fun h => hno ⟨7, le_refl 7, by norm_num, Nat.dvd_of_mod_eq_zero h⟩
      rw [if_neg h10, if_neg h9, if_neg h8, if_neg h7]

/-! ### The exact first pass -/

/-- If position `p` is the unique exact occurrence, the first pass returns it
with score 0 and confidence 1.  Uniqueness pins down which position `find?`
(the first-hit scan of source lines 193-212) produces. -/
lemma findMatchByText_exact_unique (tc gc : List String) (p : ℕ)
    (h2 : 2 ≤ tc.length) (h4 : 4 ≤ gc.length) (hp : p < gc.length)
    (he : exactAt tc gc p = true)
    (hu : ∀ q, q < gc.length → exactAt tc gc q = true → q = p) :
    findMatchByText tc gc =
      some ⟨p, p / estimateColumns gc.length + 1, p % estimateColumns gc.length + 1,
        estimateColumns gc.length, 0, 1⟩ := by
  have hguard : ¬(tc.length < 2 ∨ gc.length < 4) := by omega
  have hfind : (List.range gc.length).find? (fun pos => exactAt tc gc pos) = some p := by
    have hsome : ((List.range gc.length).find? (fun pos => exactAt tc gc pos)).isSome = true := by
      rw [List.find?_isSome]
      exact ⟨p, List.mem_range.mpr hp, he⟩
    obtain ⟨q, hq⟩ := Option.isSome_iff_exists.mp hsome
    have hqe := List.find?_some hq
    have hqm := List.mem_of_find?_eq_some hq
    rw [hq, hu q (List.mem_range.mp hqm) hqe]
  unfold findMatchByText
  rw [if_neg hguard, hfind]

/-- **C1.** For every grid of `N ≥ 4` codes containing an embedding of a
4-code target at position `p` (wraparound modulo indexing), with `p` the only
exact occurrence, `findMatchByText` returns position `p`, score 0 and
confidence 1 via the exact first pass. -/
theorem c1_exact_embedding_found (tc gc : List String) (p : ℕ)
    (ht : tc.length = 4) (hg : 4 ≤ gc.length) (hp : p < gc.length)
    (he : exactAt tc gc p = true)
    (hu : ∀ q, q < gc.length → exactAt tc gc q = true → q = p) :
    ∃ r, findMatchByText tc gc = some r ∧ r.position = p ∧ r.score = 0 ∧ r.confidence = 1 :=
  ⟨_, findMatchByText_exact_unique tc gc p (by omega) hg hp he hu, rfl, rfl, rfl⟩

/-- Witness for C1 at a concrete 4-code grid holding the target at position 0. -/
theorem c1_witness :
    ∃ r, findMatchByText ["28", "98", "94", "55"] ["28", "98", "94", "55"] = some r ∧
      r.position = 0 ∧ r.score = 0 ∧ r.confidence = 1 :=
  c1_exact_embedding_found _ _ 0 (by decide) (by decide) (by decide) (by decide) (by decide)

/-- **C6.** The concrete scenario: the target `["28","98","94","55"]`
embedded (uniquely) at index 43 of any 80-code grid resolves to row 5,
column 4, score 0, confidence 1, with `cols = 10`. -/
theorem c6_concrete_scenario (gc : List String)
    (hg : gc.length = 80)
    (he : exactAt ["28", "98", "94", "55"] gc 43 = true)
    (hu : ∀ q, q < gc.length → exactAt ["28", "98", "94", "55"] gc q = true → q = 43) :
    ∃ r, findMatchByText ["28", "98", "94", "55"] gc = some r ∧
      r.position = 43 ∧ r.cols = 10 ∧ r.row = 5 ∧ r.col = 4 ∧ r.score = 0 ∧ r.confidence = 1 := by
  have h := findMatchByText_exact_unique ["28", "98", "94", "55"] gc 43
    (by decide) (by omega) (by omega) he hu
  rw [hg] at h
  exact ⟨_, h, rfl, rfl, rfl, rfl, rfl, rfl⟩

/-- Witness for C6 on the concrete grid `c6Grid`. -/
theorem c6_witness :
    ∃ r, findMatchByText ["28", "98", "94", "55"] c6Grid = some r ∧
      r.position = 43 ∧ r.cols = 10 ∧ r.row = 5 ∧ r.col = 4 ∧ r.score = 0 ∧ r.confidence = 1 :=
  c6_concrete_scenario c6Grid (by decide) (by decide) (by decide)

end Matcher

namespace Matcher

/-! ### C2: the fuzzy cost is a sum of per-code costs -/

/-- A left fold that only accumulates is a `Finset` sum. -/
lemma foldl_add_range {M : Type*} [AddCommMonoid M] (f : ℕ → M) (n : ℕ) :
    (List.range n).foldl (fun acc i => acc + f i) 0 = ∑ i ∈ Finset.range n, f i := by
  induction n with
  | zero => simp
  | succ n ih =>
    rw [List.range_succ, List.foldl_append, ih, Finset.sum_range_succ]
    simp

/-- Counting over `List.range` is filtering over `Finset.range`. -/
lemma countP_range_eq_filter_card (p : ℕ → Prop) [DecidablePred p] (n : ℕ) :
    (List.range n).countP (fun i => decide (p i)) = ((Finset.range n).filter p).card := by
  induction n with
  | zero => simp
  | succ n ih =>
    rw [List.range_succ, List.countP_append, ih, Finset.range_succ, Finset.filter_insert]
    by_cases h : p n
    · rw [if_pos h, Finset.card_insert_of_not_mem (by simp)]
      simp [h]
    · rw [if_neg h]
      simp [h]

/-- The guard of the 1-cost branch, stated on characters as the source writes
it, is the spec's "non-empty codes sharing their first character". -/
lemma firstCharList_iff (l m : List Char) :
    (0 < l.length ∧ 0 < m.length ∧ l.getD 0 ' ' = m.getD 0 ' ') ↔
      (l ≠ [] ∧ m ≠ [] ∧ l.head? = m.head?) := by
  cases l <;> cases m <;> simp

/-- The source's per-code cost agrees case by case with the spec's. -/
lemma codeCost_eq_claimCodeCost (a b : String) : codeCost a b = claimCodeCost a b := by
  unfold codeCost claimCodeCost
  by_cases hab : a = b
  · rw [if_pos hab, if_pos hab]
  · rw [if_neg hab, if_neg hab]
    by_cases hlen : a.length = b.length
    · rw [if_pos hlen, if_pos hlen]
      unfold charDiffCount
      have h := countP_range_eq_filter_card
        (fun c => a.data.getD c ' ' ≠ b.data.getD c ' ') a.data.length
      exact_mod_cast h
    · rw [if_neg hlen, if_neg hlen]
      have hpre : (a.length < b.length ∧ a.data.isPrefixOf b.data = true) ↔
          (a.length < b.length ∧ a.data <+: b.data) :=
        and_congr_right fun _ => List.isPrefixOf_iff_prefix
      by_cases hp : a.length < b.length ∧ a.data <+: b.data
      · rw [if_pos (hpre.mpr hp), if_pos hp]
      · rw [if_neg (fun h => hp (hpre.mp h)), if_neg hp]
        have hfc : (0 < a.length ∧ 0 < b.length ∧ a.data.getD 0 ' ' = b.data.getD 0 ' ') ↔
            (a.data ≠ [] ∧ b.data ≠ [] ∧ a.data.head? = b.data.head?) := by
          rw [show a.length = a.data.length from rfl, show b.length = b.data.length from rfl]
          exact firstCharList_iff a.data b.data
        by_cases hc : a.data ≠ [] ∧ b.data ≠ [] ∧ a.data.head? = b.data.head?
        · rw [if_pos (hfc.mpr hc), if_pos hc]
        · rw [if_neg (fun h => hc (hfc.mp h)), if_neg hc]

/-- **C2.** In the fuzzy pass, the total cost of a candidate position is the
sum over all target indices `t` of the spec's per-code cost comparing target
code `t` with the grid code at `(position + t) mod N`. -/
theorem c2_fuzzy_cost_is_sum (tc gc : List String) (pos : ℕ) :
    totalCost tc gc pos =
      ∑ t ∈ Finset.range tc.length,
        claimCodeCost (tc.getD t "") (gc.getD ((pos + t) % gc.length) "") := by
  unfold totalCost
  have h := foldl_add_range
    (fun t => codeCost (tc.getD t "") (gc.getD ((pos + t) % gc.length) "")) tc.length
  exact h.trans (Finset.sum_congr rfl fun t _ => codeCost_eq_claimCodeCost _ _)

end Matcher

namespace Matcher

/-! ### The fuzzy-scan invariant and the claims it settles -/

lemma fuzzyInv_init (tc gc : List String) : FuzzyInv tc gc [] ⟨-1, none, none⟩ := by
  refine ⟨Or.inl ⟨rfl, rfl, rfl, rfl⟩, ?_, ?_, ?_⟩
  · intro b hb
    simp at hb
  · intro b s hb _
    simp at hb
  · intro h
    simp at h

lemma fuzzyInv_step (tc gc : List String) (l : List ℕ) (st : FuzzyAcc) (pos : ℕ)
    (h : FuzzyInv tc gc l st) :
    FuzzyInv tc gc (l ++ [pos]) (fuzzyStep tc gc st pos) := by
  obtain ⟨h1, h2, h3, h5⟩ := h
  unfold fuzzyStep
  by_cases hb : ltInf (totalCost tc gc pos) st.bestScore = true
  · rw [if_pos hb]
    refine ⟨Or.inr ⟨pos, List.mem_append_right _ (by simp), rfl, rfl⟩, ?_, ?_, ?_⟩
    · intro b hbeq p hp
      injection hbeq with hbeq
      subst hbeq
      rcases List.mem_append.mp hp with hp | hp
      · cases hbs : st.bestScore with
        | none =>
          rcases h1 with ⟨_, _, _, hl⟩ | ⟨q, _, _, hq2⟩
          · subst hl
            cases hp
          · rw [hbs] at hq2
            cases hq2
        | some b0 =>
          have hlt : totalCost tc gc pos < b0 := by
            rw [hbs] at hb
            simpa [ltInf] using hb
          exact le_of_lt (lt_of_lt_of_le hlt (h2 b0 hbs p hp))
      · simp only [List.mem_singleton] at hp
        subst hp
        exact le_refl _
    · intro b s hbeq hseq
      injection hbeq with hbeq
      subst hbeq
      replace hseq : st.bestScore = some s := hseq
      have hlt : totalCost tc gc pos < s := by
        rw [hseq] at hb
        simpa [ltInf] using hb
      exact le_of_lt hlt
    · intro hlen
      have hl : l ≠ [] := by
        intro hl
        subst hl
        simp at hlen
      rcases h1 with ⟨_, _, _, hl0⟩ | ⟨q, _, _, hq2⟩
      · exact absurd hl0 hl
      · show st.bestScore ≠ none
        rw [hq2]
        exact Option.some_ne_none _
  · rw [if_neg hb]
    cases hbs : st.bestScore with
    | none =>
      exfalso
      apply hb
      rw [hbs]
      rfl
    | some b0 =>
      have hble : b0 ≤ totalCost tc gc pos := by
        rw [hbs] at hb
        simpa [ltInf, not_lt] using hb
      by_cases hs : ltInf (totalCost tc gc pos) st.secondBest = true
      · rw [if_pos hs]
        refine ⟨?_, ?_, ?_, ?_⟩
        · rcases h1 with ⟨_, hbs0, _, _⟩ | ⟨q, hq, hq1, hq2⟩
          · rw [hbs] at hbs0
            cases hbs0
          · rw [hbs] at hq2
            exact Or.inr ⟨q, List.mem_append_left _ hq, hq1, hq2⟩
        · intro b hbeq p hp
          replace hbeq : some b0 = some b := hbeq
          injection hbeq with hbeq
          subst hbeq
          rcases List.mem_append.mp hp with hp | hp
          · exact h2 b0 hbs p hp
          · simp only [List.mem_singleton] at hp
            subst hp
            exact hble
        · intro b s hbeq hseq
          replace hbeq : some b0 = some b := hbeq
          injection hbeq with hbeq
          subst hbeq
          replace hseq : some (totalCost tc gc pos) = some s := hseq
          injection hseq with hseq
          subst hseq
          exact hble
        · intro _
          exact Option.some_ne_none _
      · rw [if_neg hs]
        have hsb : st.secondBest ≠ none := by
          intro hsbn
          apply hs
          rw [hsbn]
          rfl
        refine ⟨?_, ?_, h3, fun _ => hsb⟩
        · rcases h1 with ⟨_, hbs0, _, _⟩ | ⟨q, hq, hq1, hq2⟩
          · rw [hbs] at hbs0
            cases hbs0
          · exact Or.inr ⟨q, List.mem_append_left _ hq, hq1, hq2⟩
        · intro b hbeq p hp
          rcases List.mem_append.mp hp with hp | hp
          · exact h2 b hbeq p hp
          · simp only [List.mem_singleton] at hp
            subst hp
            rw [hbs] at hbeq
            injection hbeq with hbeq
            subst hbeq
            exact hble

lemma fuzzyInv_foldl (tc gc : List String) :
    ∀ (l' l : List ℕ) (st : FuzzyAcc), FuzzyInv tc gc l st →
      FuzzyInv tc gc (l ++ l') (l'.foldl (fuzzyStep tc gc) st)
  | [], l, st, h => by simpa using h
  | x :: xs, l, st, h => by
    have hstep := fuzzyInv_step tc gc l st x h
    have hrec := fuzzyInv_foldl tc gc xs (l ++ [x]) _ hstep
    simpa [List.append_assoc] using hrec

lemma fuzzyScan_inv (tc gc : List String) :
    FuzzyInv tc gc (List.range gc.length) (fuzzyScan tc gc) := by
  have h := fuzzyInv_foldl tc gc (List.range gc.length) [] ⟨-1, none, none⟩ (fuzzyInv_init tc gc)
  simpa using h

/-- Evaluation rule for the acceptance step on a finite best score. -/
lemma fuzzyResult_eval (T N bp : ℕ) (b : ℚ) (sb : Option ℚ) :
    fuzzyResult T N ⟨Int.ofNat bp, some b, sb⟩ =
      if b ≤ 3 then
        some ⟨bp, bp / estimateColumns N + 1, bp % estimateColumns N + 1, estimateColumns N, b,
          match sb with
          | none => 1
          | some s => if 0 < s - b then max (1/10) (min 1 ((s - b) / (T : ℚ))) else 1/10⟩
      else none := rfl

/-- **C3.** `findMatchByText` returns nothing (and, being a total function,
never throws) exactly when the target has fewer than 2 codes, the grid has
fewer than 4 codes, or no position matches exactly and every position's
fuzzy cost exceeds 3; otherwise it returns a result. -/
theorem c3_null_iff (tc gc : List String) :
    findMatchByText tc gc = none ↔
      (tc.length < 2 ∨ gc.length < 4 ∨
        ((∀ p < gc.length, ¬ exactAt tc gc p = true) ∧
         (∀ p < gc.length, 3 < totalCost tc gc p))) := by
  by_cases hsz : tc.length < 2 ∨ gc.length < 4
  · constructor
    · intro _
      rcases hsz with h | h
      · exact Or.inl h
      · exact Or.inr (Or.inl h)
    · intro _
      unfold findMatchByText
      rw [if_pos hsz]
  · unfold findMatchByText
    rw [if_neg hsz]
    push_neg at hsz
    obtain ⟨h2, h4⟩ := hsz
    cases hf : (List.range gc.length).find? (fun pos => exactAt tc gc pos) with
    | some q =>
      have hqe := List.find?_some hf
      have hqm := List.mem_of_find?_eq_some hf
      constructor
      · intro h
        cases h
      · intro h
        rcases h with h | h | h
        · omega
        · omega
        · exact absurd hqe (h.1 q (List.mem_range.mp hqm))
    | none =>
      have hnone : ∀ p < gc.length, ¬ exactAt tc gc p = true := fun p hp =>
        List.find?_eq_none.mp hf p (List.mem_range.mpr hp)
      show fuzzyResult tc.length gc.length (fuzzyScan tc gc) = none ↔ _
      have hinv := fuzzyScan_inv tc gc
      rcases hsc : fuzzyScan tc gc with ⟨bp', bs', sb'⟩
      rw [hsc] at hinv
      obtain ⟨h1, hmin, hsec, h5⟩ := hinv
      rcases h1 with ⟨_, _, _, hl⟩ | ⟨p0, hp0m, hbp, hbs⟩
      · exfalso
        rw [List.range_eq_nil] at hl
        omega
      · replace hbp : bp' = Int.ofNat p0 := hbp
        replace hbs : bs' = some (totalCost tc gc p0) := hbs
        subst hbp hbs
        replace hmin : ∀ b, some (totalCost tc gc p0) = some b →
            ∀ p ∈ List.range gc.length, b ≤ totalCost tc gc p := hmin
        rw [fuzzyResult_eval]
        by_cases hle : totalCost tc gc p0 ≤ 3
        · rw [if_pos hle]
          constructor
          · intro h
            cases h
          · intro h
            rcases h with h | h | h
            · omega
            · omega
            · have hgt := h.2 p0 (List.mem_range.mp hp0m)
              exact absurd hgt (not_lt.mpr hle)
        · rw [if_neg hle]
          constructor
          · intro _
            refine Or.inr (Or.inr ⟨hnone, ?_⟩)
            intro p hp
            by_contra hcon
            push_neg at hcon
            have := hmin _ rfl p (List.mem_range.mpr hp)
            exact hle (le_trans this hcon)
          · intro _
            rfl

end Matcher

namespace Matcher

/-! ### C4: fuzzy confidence formula -/

/-- **C4.** Whenever the fuzzy pass accepts (no exact match exists and a
result is returned), the confidence equals
`max(0.1, min(1, (secondBest - best) / numTargets))` — also in the tied case,
where both sides are 0.1 — and is therefore always at least 0.1. -/
theorem c4_fuzzy_confidence (tc gc : List String) (r : TextMatch)
    (hne : ∀ p < gc.length, ¬ exactAt tc gc p = true)
    (hr : findMatchByText tc gc = some r) :
    (1/10 : ℚ) ≤ r.confidence ∧
      ∃ b s, (fuzzyScan tc gc).bestScore = some b ∧ (fuzzyScan tc gc).secondBest = some s ∧
        b ≤ s ∧ b ≤ 3 ∧
        r.confidence = max (1/10) (min 1 ((s - b) / (tc.length : ℚ))) := by
  by_cases hsz : tc.length < 2 ∨ gc.length < 4
  · exfalso
    unfold findMatchByText at hr
    rw [if_pos hsz] at hr
    cases hr
  · have hf : (List.range gc.length).find? (fun pos => exactAt tc gc pos) = none :=
      List.find?_eq_none.mpr fun x hx => hne x (List.mem_range.mp hx)
    unfold findMatchByText at hr
    rw [if_neg hsz, hf] at hr
    replace hr : fuzzyResult tc.length gc.length (fuzzyScan tc gc) = some r := hr
    have h4 : 4 ≤ gc.length := by
      rcases not_or.mp hsz with ⟨_, h⟩
      omega
    have hinv := fuzzyScan_inv tc gc
    rcases hsc : fuzzyScan tc gc with ⟨bp', bs', sb'⟩
    rw [hsc] at hinv hr
    obtain ⟨h1, hmin, hsec, h5⟩ := hinv
    rcases h1 with ⟨_, _, _, hl⟩ | ⟨p0, hp0m, hbp, hbs⟩
    · exfalso
      rw [List.range_eq_nil] at hl
      omega
    · replace hbp : bp' = Int.ofNat p0 := hbp
      replace hbs : bs' = some (totalCost tc gc p0) := hbs
      subst hbp hbs
      have hsb : sb' ≠ none := by
        replace h5 : 2 ≤ (List.range gc.length).length → sb' ≠ none := h5
        apply h5
        rw [List.length_range]
        omega
      cases hsbv : sb' with
      | none => exact absurd hsbv hsb
      | some s =>
        subst hsbv
        replace hsec : ∀ b s0, some (totalCost tc gc p0) = some b → some s = some s0 →
          b ≤ s0 := hsec
        have hbss : totalCost tc gc p0 ≤ s := hsec _ _ rfl rfl
        rw [fuzzyResult_eval] at hr
        by_cases hle : totalCost tc gc p0 ≤ 3
        · rw [if_pos hle] at hr
          injection hr with hr
          subst hr
          constructor
          · show (1/10 : ℚ) ≤ if 0 < s - totalCost tc gc p0 then
                max (1/10) (min 1 ((s - totalCost tc gc p0) / (tc.length : ℚ))) else 1/10
            split
            · exact le_max_left _ _
            · exact le_refl _
          · refine ⟨totalCost tc gc p0, s, rfl, rfl, hbss, hle, ?_⟩
            show (if 0 < s - totalCost tc gc p0 then
                max (1/10) (min 1 ((s - totalCost tc gc p0) / (tc.length : ℚ))) else 1/10) =
              max (1/10) (min 1 ((s - totalCost tc gc p0) / (tc.length : ℚ)))
            by_cases hgap : 0 < s - totalCost tc gc p0
            · rw [if_pos hgap]
            · rw [if_neg hgap]
              have hz : s - totalCost tc gc p0 = 0 :=
                le_antisymm (not_lt.mp hgap) (sub_nonneg.mpr hbss)
              rw [hz]
              norm_num
        · rw [if_neg hle] at hr
          cases hr

section

/- Rational arithmetic is sealed (`@[irreducible]`) in the library; open it up
locally so `decide` can evaluate the concrete fuzzy scan. -/
unseal Rat.add Rat.mul Rat.inv Rat.sub

/-- Witness for C4: target `["28","98"]` against grid `["28","99","11","22"]`
has no exact occurrence; the fuzzy pass accepts position 0 with cost 1,
second-best 2, so confidence is `max(0.1, min(1, 1/2)) = 1/2`. -/
theorem c4_witness :
    (1/10 : ℚ) ≤ (TextMatch.mk 0 1 1 10 1 (1/2)).confidence ∧
      ∃ b s, (fuzzyScan ["28", "98"] ["28", "99", "11", "22"]).bestScore = some b ∧
        (fuzzyScan ["28", "98"] ["28", "99", "11", "22"]).secondBest = some s ∧
        b ≤ s ∧ b ≤ 3 ∧
        (TextMatch.mk 0 1 1 10 1 (1/2)).confidence =
          max (1/10) (min 1 ((s - b) / ((["28", "98"] : List String).length : ℚ))) :=
  c4_fuzzy_confidence ["28", "98"] ["28", "99", "11", "22"] (TextMatch.mk 0 1 1 10 1 (1/2))
    (by decide) (by decide)

end

/-! ### C8: no false positive when a target code is absent -/

/-- `totalCost` as a `Finset` sum of per-code costs. -/
lemma totalCost_eq_sum (tc gc : List String) (pos : ℕ) :
    totalCost tc gc pos =
      ∑ t ∈ Finset.range tc.length,
        codeCost (tc.getD t "") (gc.getD ((pos + t) % gc.length) "") :=
  foldl_add_range _ _

lemma codeCost_nonneg (a b : String) : 0 ≤ codeCost a b := by
  unfold codeCost
  split
  · exact le_refl 0
  · split
    · exact Nat.cast_nonneg _
    · split
      · norm_num
      · split
        · norm_num
        · norm_num

/-- Two distinct equal-length strings differ in at least one position. -/
lemma charDiffCount_pos (l m : List Char) (hlen : l.length = m.length) (hne : l ≠ m) :
    0 < charDiffCount l m := by
  unfold charDiffCount
  rw [List.countP_pos]
  by_contra hcon
  push_neg at hcon
  apply hne
  apply List.ext_get hlen
  intro i h1 h2
  have hi := hcon i (List.mem_range.mpr h1)
  have heq : l.getD i ' ' = m.getD i ' ' := by
    by_contra hne2
    exact hi (decide_eq_true hne2)
  rwa [List.getD_eq_get l ' ' h1, List.getD_eq_get m ' ' h2] at heq

/-- Distinct codes always incur a strictly positive cost. -/
lemma codeCost_pos_of_ne (a b : String) (h : a ≠ b) : 0 < codeCost a b := by
  unfold codeCost
  rw [if_neg h]
  by_cases hlen : a.length = b.length
  · rw [if_pos hlen]
    have hdata : a.data ≠ b.data := fun hd => h (String.ext hd)
    have hlen' : a.data.length = b.data.length := hlen
    exact_mod_cast charDiffCount_pos a.data b.data hlen' hdata
  · rw [if_neg hlen]
    split
    · norm_num
    · split
      · norm_num
      · norm_num

/-- **C8.** If some target code occurs nowhere in the grid, `findMatchByText`
either returns nothing or returns a result with strictly positive score: it
can never report an exact, score-0 match. -/
theorem c8_no_false_positive (tc gc : List String)
    (habs : ∃ t, t < tc.length ∧ ∀ g ∈ gc, g ≠ tc.getD t "") :
    findMatchByText tc gc = none ∨
      ∃ r, findMatchByText tc gc = some r ∧ 0 < r.score := by
  obtain ⟨t, ht, habs⟩ := habs
  by_cases hsz : tc.length < 2 ∨ gc.length < 4
  · left
    unfold findMatchByText
    rw [if_pos hsz]
  · have h4 : 4 ≤ gc.length := by
      rcases not_or.mp hsz with ⟨_, h⟩
      omega
    have hN : 0 < gc.length := by omega
    have hf : (List.range gc.length).find? (fun pos => exactAt tc gc pos) = none := by
      rw [List.find?_eq_none]
      intro pos _ hex
      rw [exactAt, List.all_eq_true] at hex
      have hext := hex t (List.mem_range.mpr ht)
      rw [decide_eq_true_eq] at hext
      have hmem : gc.getD ((pos + t) % gc.length) "" ∈ gc := by
        have hlt : (pos + t) % gc.length < gc.length := Nat.mod_lt _ hN
        rw [List.getD_eq_get _ _ hlt]
        exact List.get_mem _ _ _
      exact habs _ hmem hext
    have heq : findMatchByText tc gc = fuzzyResult tc.length gc.length (fuzzyScan tc gc) := by
      unfold findMatchByText
      rw [if_neg hsz, hf]
    rw [heq]
    have hinv := fuzzyScan_inv tc gc
    rcases hsc : fuzzyScan tc gc with ⟨bp', bs', sb'⟩
    rw [hsc] at hinv
    obtain ⟨h1, _, _, _⟩ := hinv
    rcases h1 with ⟨_, _, _, hl⟩ | ⟨p0, _, hbp, hbs⟩
    · exfalso
      rw [List.range_eq_nil] at hl
      omega
    · replace hbp : bp' = Int.ofNat p0 := hbp
      replace hbs : bs' = some (totalCost tc gc p0) := hbs
      subst hbp hbs
      have hpos : 0 < totalCost tc gc p0 := by
        rw [totalCost_eq_sum]
        refine Finset.sum_pos' (fun i _ => codeCost_nonneg _ _)
          ⟨t, Finset.mem_range.mpr ht, ?_⟩
        apply codeCost_pos_of_ne
        intro hEq
        have hmem : gc.getD ((p0 + t) % gc.length) "" ∈ gc := by
          have hlt : (p0 + t) % gc.length < gc.length := Nat.mod_lt _ hN
          rw [List.getD_eq_get _ _ hlt]
          exact List.get_mem _ _ _
        exact habs _ hmem hEq.symm
      rw [fuzzyResult_eval]
      by_cases hle : totalCost tc gc p0 ≤ 3
      · right
        rw [if_pos hle]
        exact ⟨_, rfl, hpos⟩
      · left
        rw [if_neg hle]

/-- Witness for C8: both target codes are absent from the grid, and indeed
no match is returned (every fuzzy cost is 4 > 3). -/
theorem c8_witness :
    findMatchByText ["ZZ", "YY"] ["11", "22", "33", "44"] = none ∨
      ∃ r, findMatchByText ["ZZ", "YY"] ["11", "22", "33", "44"] = some r ∧ 0 < r.score :=
  c8_no_false_positive ["ZZ", "YY"] ["11", "22", "33", "44"] ⟨0, by decide, by decide⟩

end Matcher

namespace Matcher

/-- Witness for C5's amended rule at the non-window length 48, whose largest
divisor in [7, 10] is 8. -/
theorem c5_witness :
    7 ≤ estimateColumns 48 ∧ estimateColumns 48 ≤ 10 ∧ estimateColumns 48 ∣ 48 ∧
      ∀ d, 7 ≤ d → d ≤ 10 → d ∣ 48 → d ≤ estimateColumns 48 :=
  ((c5_columns_amended 48).2 (by decide)).1 ⟨8, by decide⟩

end Matcher

namespace Detector

/-! ### C9: band merging keeps at least 8 bands -/

/-- **C9.** For every band list with at least 8 bands, `mergeBands` returns a
list with at least 8 bands: inputs of at most 8 bands are returned unchanged,
as are inputs without a ≥2× ratio jump, and whenever the merged list would
have fewer than 8 bands the original list is returned instead. -/
theorem c9_merge_keeps_eight (bands : List Band) (h8 : 8 ≤ bands.length) :
    8 ≤ (mergeBands bands).length ∧
      (bands.length ≤ 8 → mergeBands bands = bands) ∧
      (8 < bands.length →
        (gapScan ((bandGaps bands).insertionSort (· ≤ ·))).1 < 2 → mergeBands bands = bands) ∧
      (8 < bands.length →
        ¬(gapScan ((bandGaps bands).insertionSort (· ≤ ·))).1 < 2 →
        (mergedOf bands (gapScan ((bandGaps bands).insertionSort (· ≤ ·))).2).length < 8 →
        mergeBands bands = bands) := by
  unfold mergeBands
  by_cases hle : bands.length ≤ 8
  · rw [if_pos hle]
    exact ⟨h8, fun _ => rfl, fun hgt _ => absurd hle (by omega),
      fun hgt _ _ => absurd hle (by omega)⟩
  · rw [if_neg hle]
    by_cases hr2 : (gapScan ((bandGaps bands).insertionSort (· ≤ ·))).1 < 2
    · rw [if_pos hr2]
      exact ⟨h8, fun h => absurd h hle, fun _ _ => rfl, fun _ hnr _ => absurd hr2 hnr⟩
    · rw [if_neg hr2]
      by_cases hm :
          (mergedOf bands (gapScan ((bandGaps bands).insertionSort (· ≤ ·))).2).length < 8
      · rw [if_pos hm]
        exact ⟨h8, fun h => absurd h hle, fun _ h => absurd h hr2, fun _ _ _ => rfl⟩
      · rw [if_neg hm]
        exact ⟨by omega, fun h => absurd h hle, fun _ h => absurd h hr2,
          fun _ _ h => absurd h hm⟩

/-- Witness for C9 on a concrete list of exactly 8 bands. -/
theorem c9_witness :
    8 ≤ (mergeBands [⟨0, 1, 0⟩, ⟨2, 3, 0⟩, ⟨4, 5, 0⟩, ⟨6, 7, 0⟩, ⟨8, 9, 0⟩, ⟨10, 11, 0⟩,
      ⟨12, 13, 0⟩, ⟨14, 15, 0⟩]).length :=
  (c9_merge_keeps_eight _ (by decide)).1

end Detector

namespace Matcher

/-! ### C10: totality and bounds of the distance primitives -/

lemma hammingDist_mismatch (a b : List ℕ) (h : a.length ≠ b.length) : hammingDist a b = 1 := by
  unfold hammingDist
  rw [if_pos h]

lemma hammingDist_bounds (a b : List ℕ) (h : a.length = b.length) :
    0 ≤ hammingDist a b ∧ hammingDist a b ≤ 1 := by
  unfold hammingDist
  rw [if_neg (fun hn => hn h)]
  constructor
  · exact div_nonneg (Nat.cast_nonneg _) (Nat.cast_nonneg _)
  · rcases Nat.eq_zero_or_pos a.length with h0 | _
    · rw [h0]
      simp
    · apply div_le_one_of_le
      · exact_mod_cast (List.countP_le_length _).trans_eq (List.length_range _)
      · exact Nat.cast_nonneg _

lemma hammingDist_nonneg (a b : List ℕ) : 0 ≤ hammingDist a b := by
  by_cases h : a.length = b.length
  · exact (hammingDist_bounds a b h).1
  · rw [hammingDist_mismatch a b h]
    norm_num

lemma nccDen_nonneg (a : List ℕ) : 0 ≤ nccDen a :=
  Finset.sum_nonneg fun i _ => mul_self_nonneg _

/-- Cauchy-Schwarz for the `ncc` accumulators. -/
lemma nccNum_abs_le (a b : List ℕ) (h : a.length = b.length) :
    |nccNum a b| ≤ Real.sqrt (nccDen a * nccDen b) := by
  have hcs := Finset.sum_mul_sq_le_sq_mul_sq (Finset.range a.length)
    (fun i => (a.getD i 0 : ℝ) - nccMean a) (fun i => (b.getD i 0 : ℝ) - nccMean b)
  have hda : nccDen a = ∑ i ∈ Finset.range a.length,
      ((a.getD i 0 : ℝ) - nccMean a) ^ 2 := by
    unfold nccDen
    exact Finset.sum_congr rfl fun i _ => (pow_two _).symm
  have hdb : nccDen b = ∑ i ∈ Finset.range a.length,
      ((b.getD i 0 : ℝ) - nccMean b) ^ 2 := by
    unfold nccDen
    rw [h]
    exact Finset.sum_congr rfl fun i _ => (pow_two _).symm
  have hsq : nccNum a b ^ 2 ≤ nccDen a * nccDen b := by
    rw [hda, hdb]
    exact hcs
  calc |nccNum a b| = Real.sqrt (nccNum a b ^ 2) := (Real.sqrt_sq_eq_abs _).symm
    _ ≤ Real.sqrt (nccDen a * nccDen b) := Real.sqrt_le_sqrt hsq

/-- A constant array has zero variance. -/
lemma nccDen_eq_zero_of_const (a : List ℕ) (hc : ∀ x ∈ a, ∀ y ∈ a, x = y) :
    nccDen a = 0 := by
  rcases Nat.eq_zero_or_pos a.length with h0 | hpos
  · unfold nccDen
    rw [h0]
    simp
  · have hval : ∀ i, i < a.length → a.getD i 0 = a.getD 0 0 := by
      intro i hi
      have h1 : a.getD i 0 ∈ a := by
        rw [List.getD_eq_get _ _ hi]
        exact List.get_mem _ _ _
      have h2 : a.getD 0 0 ∈ a := by
        rw [List.getD_eq_get _ _ hpos]
        exact List.get_mem _ _ _
      exact hc _ h1 _ h2
    have hmean : nccMean a = (a.getD 0 0 : ℝ) := by
      unfold nccMean
      have hsum : (∑ i ∈ Finset.range a.length, (a.getD i 0 : ℝ)) =
          a.length * (a.getD 0 0 : ℝ) := by
        rw [Finset.sum_congr rfl
          (fun i hi => by rw [hval i (Finset.mem_range.mp hi)]), Finset.sum_const,
          Finset.card_range, nsmul_eq_mul]
      rw [hsum]
      exact mul_div_cancel_left₀ _ (Nat.cast_ne_zero.mpr (by omega))
    unfold nccDen
    apply Finset.sum_eq_zero
    intro i hi
    rw [hval i (Finset.mem_range.mp hi), hmean]
    ring

/-- **C10 (counterexample).** The claim fails at the two empty byte arrays:
their lengths match, yet the source divides zero by zero — `NaN`, modelled
`none` — and so does not return a value in `[0, 1]`. -/
theorem c10_counterexample :
    ([] : List ℕ).length = ([] : List ℕ).length ∧
      hammingDistJs [] [] = none ∧
      ¬∃ q, hammingDistJs [] [] = some q ∧ 0 ≤ q ∧ q ≤ 1 := by
  have h : hammingDistJs [] [] = none := by
    simp [hammingDistJs, jsDiv]
  refine ⟨rfl, h, ?_⟩
  rintro ⟨q, hq, -⟩
  rw [h] at hq
  cases hq

/-- **C10 (amended).** The distance primitives never throw: `hammingDist`
returns 1 on a length mismatch, a value in `[0, 1]` for equal-length
nonempty arrays, and `NaN` (`none`) from its `0 / 0` on two empty arrays;
`ncc` returns -1 on a length mismatch, 0 whenever either input is constant
(the zero-variance guard avoids its division by zero), and always a value in
`[-1, 1]`. -/
theorem c10_distance_primitives_amended (a b : List ℕ) :
    (a.length ≠ b.length → hammingDistJs a b = some 1 ∧ ncc a b = -1) ∧
    (a.length = b.length →
      (a ≠ [] → ∃ q, hammingDistJs a b = some q ∧ 0 ≤ q ∧ q ≤ 1) ∧
      (a = [] → hammingDistJs a b = none) ∧
      ((∀ x ∈ a, ∀ y ∈ a, x = y) ∨ (∀ x ∈ b, ∀ y ∈ b, x = y) → ncc a b = 0) ∧
      (-1 ≤ ncc a b ∧ ncc a b ≤ 1)) := by
  constructor
  · intro h
    constructor
    · unfold hammingDistJs
      rw [if_pos h]
    · unfold ncc
      rw [if_pos h]
  · intro h
    refine ⟨?_, ?_, ?_, ?_⟩
    · intro hne
      unfold hammingDistJs jsDiv
      rw [if_neg (fun hn => hn h)]
      have hlen : a.length ≠ 0 := fun h0 => hne (List.length_eq_zero.mp h0)
      rw [if_neg (Nat.cast_ne_zero.mpr hlen)]
      refine ⟨_, rfl, div_nonneg (Nat.cast_nonneg _) (Nat.cast_nonneg _), ?_⟩
      apply div_le_one_of_le
      · exact_mod_cast (List.countP_le_length _).trans_eq (List.length_range _)
      · exact Nat.cast_nonneg _
    · intro ha
      subst ha
      unfold hammingDistJs jsDiv
      rw [if_neg (fun hn => hn h)]
      simp
    · intro hconst
      unfold ncc
      rw [if_neg (fun hn => hn h)]
      have hz : Real.sqrt (nccDen a * nccDen b) = 0 := by
        rcases hconst with hc | hc
        · rw [nccDen_eq_zero_of_const a hc, zero_mul, Real.sqrt_zero]
        · rw [nccDen_eq_zero_of_const b hc, mul_zero, Real.sqrt_zero]
      rw [if_pos hz]
    · unfold ncc
      rw [if_neg (fun hn => hn h)]
      by_cases hz : Real.sqrt (nccDen a * nccDen b) = 0
      · rw [if_pos hz]
        norm_num
      · rw [if_neg hz]
        have hpos : 0 < Real.sqrt (nccDen a * nccDen b) :=
          lt_of_le_of_ne (Real.sqrt_nonneg _) (Ne.symm hz)
        have habs : |nccNum a b / Real.sqrt (nccDen a * nccDen b)| ≤ 1 := by
          rw [abs_div, abs_of_pos hpos]
          exact div_le_one_of_le (nccNum_abs_le a b h) (le_of_lt hpos)
        exact abs_le.mp habs

/-- Witness for the amended C10: mismatched lengths give Hamming distance 1
and correlation -1; a constant first input gives correlation 0; a nonempty
equal-length pair gets a distance within `[0, 1]`. -/
theorem c10_witness :
    (hammingDistJs [0, 1] [0] = some 1 ∧ ncc [0, 1] [0] = -1) ∧
      ncc [3, 3] [0, 7] = 0 ∧
      ∃ q, hammingDistJs [0] [1] = some q ∧ 0 ≤ q ∧ q ≤ 1 :=
  ⟨(c10_distance_primitives_amended [0, 1] [0]).1 (by decide),
   (((c10_distance_primitives_amended [3, 3] [0, 7]).2 (by decide)).2.2.1 (Or.inl (by decide))),
   (((c10_distance_primitives_amended [0] [1]).2 (by decide)).1 (by decide))⟩

end Matcher

namespace Matcher

/-! ### C7: the pixel-ensemble matcher -/

lemma sortedScores_sorted (sc : ℕ → ℝ) (l : List ℕ) :
    (sortedScores sc l).Sorted (· ≤ ·) :=
  List.sorted_insertionSort _ _

lemma sortedScores_append (sc : ℕ → ℝ) (l : List ℕ) (i : ℕ) :
    sortedScores sc (l ++ [i]) = List.orderedInsert (· ≤ ·) (sc i) (sortedScores sc l) := by
  apply List.eq_of_perm_of_sorted ?_ (List.sorted_insertionSort _ _)
    ((List.sorted_insertionSort _ _).orderedInsert _ _)
  calc (sortedScores sc (l ++ [i])).Perm ((l ++ [i]).map sc) := List.perm_insertionSort _ _
    _ = (l.map sc ++ [sc i] : List ℝ) := by simp
    _ |>.Perm (sc i :: l.map sc) := List.perm_append_singleton _ _
    _ |>.Perm (sc i :: sortedScores sc l) :=
        List.Perm.cons _ (List.perm_insertionSort _ _).symm
    _ |>.Perm (List.orderedInsert (· ≤ ·) (sc i) (sortedScores sc l)) :=
        (List.perm_orderedInsert _ _ _).symm

/-- `ncc` never exceeds 1 (Cauchy-Schwarz) and is at least -1. -/
lemma ncc_bounds (a b : List ℕ) : -1 ≤ ncc a b ∧ ncc a b ≤ 1 := by
  unfold ncc
  by_cases hlen : a.length ≠ b.length
  · rw [if_pos hlen]
    norm_num
  · rw [if_neg hlen]
    by_cases hz : Real.sqrt (nccDen a * nccDen b) = 0
    · rw [if_pos hz]
      norm_num
    · rw [if_neg hz]
      have hpos : 0 < Real.sqrt (nccDen a * nccDen b) :=
        lt_of_le_of_ne (Real.sqrt_nonneg _) (Ne.symm hz)
      have habs : |nccNum a b / Real.sqrt (nccDen a * nccDen b)| ≤ 1 := by
        rw [abs_div, abs_of_pos hpos]
        exact div_le_one_of_le (nccNum_abs_le a b (not_ne_iff.mp hlen)) (le_of_lt hpos)
      exact abs_le.mp habs

/-- The ensemble score accumulation as a `Finset` sum. -/
lemma scoreAt_eq_sum (tc gc : List (List ℕ)) (pos : ℕ) :
    scoreAt tc gc pos =
      ∑ t ∈ Finset.range (min 4 tc.length),
        ((1 - ncc (tc.getD t []) (gc.getD ((pos + t) % gc.length) [])) +
          (1 - ncc (downsample2x (tc.getD t []))
            (downsample2x (gc.getD ((pos + t) % gc.length) []))) +
          ((hammingDist (toBinary (tc.getD t [])) (toBinary (gc.getD ((pos + t) % gc.length) []))
            : ℚ) : ℝ) * (1/2)) :=
  foldl_add_range _ _

/-- Every position's ensemble score is nonnegative. -/
lemma scoreAt_nonneg (tc gc : List (List ℕ)) (pos : ℕ) : 0 ≤ scoreAt tc gc pos := by
  rw [scoreAt_eq_sum]
  apply Finset.sum_nonneg
  intro t _
  have h1 := (ncc_bounds (tc.getD t []) (gc.getD ((pos + t) % gc.length) [])).2
  have h2 := (ncc_bounds (downsample2x (tc.getD t []))
    (downsample2x (gc.getD ((pos + t) % gc.length) []))).2
  have h3 : (0 : ℝ) ≤ ((hammingDist (toBinary (tc.getD t []))
      (toBinary (gc.getD ((pos + t) % gc.length) [])) : ℚ) : ℝ) := by
    exact_mod_cast hammingDist_nonneg _ _
  nlinarith

end Matcher

namespace Matcher

lemma oLt_some_some (a b : ℝ) : oLt (some a) (some b) = (a < b) := rfl

lemma oLt_some_none (a : ℝ) : oLt (some a) none = True := rfl

/-- How one insertion step transforms the three smallest scores: the nested
conditional mirrors `topStep` on scores alone, and equals the take-3 of the
sorted list with the new score inserted. -/
lemma top3_take_step (S : List ℝ) (hS : S.Sorted (· ≤ ·)) (s : ℝ)
    (x y z : Option ℝ) (h : [x, y, z] = pad3 (S.take 3)) :
    (if oLt (some s) z then
      if oLt (some s) y then
        if oLt (some s) x then [some s, x, y] else [x, some s, y]
      else if oLt y x then [y, x, some s] else [x, y, some s]
    else [x, y, z]) = pad3 ((List.orderedInsert (· ≤ ·) s S).take 3) := by
  rcases S with _ | ⟨a, _ | ⟨b, _ | ⟨c, rest⟩⟩⟩
  · simp [pad3] at h
    obtain ⟨hx, hy, hz⟩ := h
    subst hx hy hz
    simp [oLt_some_none, pad3, List.orderedInsert]
  · simp [pad3] at h
    obtain ⟨hx, hy, hz⟩ := h
    subst hx hy hz
    by_cases hsa : s < a
    · simp [oLt_some_none, oLt_some_some, hsa, pad3, List.orderedInsert, le_of_lt hsa]
    · by_cases hle : s ≤ a
      · obtain rfl : a = s := le_antisymm (not_lt.mp hsa) hle
        simp [oLt_some_none, oLt_some_some, pad3, List.orderedInsert]
      · simp [oLt_some_none, oLt_some_some, hsa, pad3, List.orderedInsert, hle]
  · have hab : a ≤ b := (List.sorted_cons.mp hS).1 b (by simp)
    simp [pad3] at h
    obtain ⟨hx, hy, hz⟩ := h
    subst hx hy hz
    by_cases hsb : s < b
    · by_cases hsa : s < a
      · simp [oLt_some_none, oLt_some_some, hsa, hsb, pad3, List.orderedInsert, le_of_lt hsa]
      · by_cases hle : s ≤ a
        · obtain rfl : a = s := le_antisymm (not_lt.mp hsa) hle
          simp [oLt_some_none, oLt_some_some, hsb, pad3, List.orderedInsert]
        · simp [oLt_some_none, oLt_some_some, hsa, hsb, pad3, List.orderedInsert, hle,
            le_of_lt hsb]
    · have hbs : b ≤ s := not_lt.mp hsb
      have hnba : ¬b < a := not_lt.mpr hab
      by_cases hle1 : s ≤ a
      · obtain rfl : a = s := le_antisymm (hab.trans hbs) hle1
        obtain rfl : a = b := le_antisymm hab hbs
        simp [oLt_some_none, oLt_some_some, pad3, List.orderedInsert]
      · by_cases hle2 : s ≤ b
        · obtain rfl : b = s := le_antisymm hbs hle2
          simp [oLt_some_none, oLt_some_some, hnba, pad3, List.orderedInsert, hle1]
        · simp [oLt_some_none, oLt_some_some, hsb, hnba, pad3, List.orderedInsert, hle1, hle2]
  · have hab : a ≤ b := (List.sorted_cons.mp hS).1 b (by simp)
    have hS1 : (b :: c :: rest).Sorted (· ≤ ·) := (List.sorted_cons.mp hS).2
    have hbc : b ≤ c := (List.sorted_cons.mp hS1).1 c (by simp)
    simp [pad3] at h
    obtain ⟨hx, hy, hz⟩ := h
    subst hx hy hz
    by_cases hsc : s < c
    · by_cases hsb : s < b
      · by_cases hsa : s < a
        · simp [oLt_some_none, oLt_some_some, hsa, hsb, hsc, pad3, List.orderedInsert,
            le_of_lt hsa]
        · by_cases hle : s ≤ a
          · obtain rfl : a = s := le_antisymm (not_lt.mp hsa) hle
            simp [oLt_some_none, oLt_some_some, hsb, hsc, pad3, List.orderedInsert]
          · simp [oLt_some_none, oLt_some_some, hsa, hsb, hsc, pad3, List.orderedInsert,
              hle, le_of_lt hsb]
      · have hbs : b ≤ s := not_lt.mp hsb
        have hnba : ¬b < a := not_lt.mpr hab
        by_cases hle1 : s ≤ a
        · obtain rfl : a = s := le_antisymm (hab.trans hbs) hle1
          obtain rfl : a = b := le_antisymm hab hbs
          simp [oLt_some_none, oLt_some_some, hsc, pad3, List.orderedInsert]
        · by_cases hle2 : s ≤ b
          · obtain rfl : b = s := le_antisymm hbs hle2
            simp [oLt_some_none, oLt_some_some, hnba, hsc, pad3, List.orderedInsert, hle1]
          · simp [oLt_some_none, oLt_some_some, hsb, hnba, hsc, pad3, List.orderedInsert,
              hle1, hle2, le_of_lt hsc]
    · have hcs : c ≤ s := not_lt.mp hsc
      have hnsc : ¬oLt (some s) (some c) := hsc
      rw [if_neg hnsc]
      by_cases hle1 : s ≤ a
      · obtain rfl : a = s := le_antisymm (hab.trans (hbc.trans hcs)) hle1
        obtain rfl : a = b := le_antisymm hab (hbc.trans hcs)
        obtain rfl : a = c := le_antisymm hbc hcs
        simp [pad3, List.orderedInsert]
      · by_cases hle2 : s ≤ b
        · obtain rfl : b = s := le_antisymm (hbc.trans hcs) hle2
          obtain rfl : b = c := le_antisymm hbc hcs
          simp [pad3, List.orderedInsert, hle1]
        · by_cases hle3 : s ≤ c
          · obtain rfl : c = s := le_antisymm hcs hle3
            simp [pad3, List.orderedInsert, hle1, hle2]
          · simp [pad3, List.orderedInsert, hle1, hle2, hle3]

end Matcher

namespace Matcher

lemma entryOk_mono (sc : ℕ → ℝ) (l : List ℕ) (i : ℕ) (e : TopEntry)
    (h : EntryOk sc l e) : EntryOk sc (l ++ [i]) e := fun s hs =>
  ⟨List.mem_append_left _ (h s hs).1, (h s hs).2⟩

lemma entryOk_new (sc : ℕ → ℝ) (l : List ℕ) (i : ℕ) :
    EntryOk sc (l ++ [i]) ⟨i, some (sc i)⟩ := by
  intro s hs
  injection hs with hs
  exact ⟨List.mem_append_right _ (by simp), hs.symm⟩

lemma topInv_init (sc : ℕ → ℝ) : TopInv sc [] ⟨⟨0, none⟩, ⟨0, none⟩, ⟨0, none⟩⟩ := by
  refine ⟨by simp [sortedScores, pad3], ?_, ?_, ?_⟩ <;>
    exact fun s hs => by cases hs

lemma topInv_step (sc : ℕ → ℝ) (l : List ℕ) (tp : Top3) (i : ℕ)
    (h : TopInv sc l tp) : TopInv sc (l ++ [i]) (topStep sc tp i) := by
  obtain ⟨h1, h2, h3, h4⟩ := h
  have hkey := top3_take_step (sortedScores sc l) (sortedScores_sorted sc l) (sc i)
    tp.t0.score tp.t1.score tp.t2.score h1
  unfold topStep
  by_cases hc2 : oLt (some (sc i)) tp.t2.score
  · by_cases hc1 : oLt (some (sc i)) tp.t1.score
    · by_cases hc0 : oLt (some (sc i)) tp.t0.score
      · rw [if_pos hc2, if_pos hc1, if_pos hc0]
        refine ⟨?_, entryOk_new sc l i, entryOk_mono sc l i _ h2, entryOk_mono sc l i _ h3⟩
        rw [sortedScores_append, ← hkey, if_pos hc2, if_pos hc1, if_pos hc0]
      · rw [if_pos hc2, if_pos hc1, if_neg hc0]
        refine ⟨?_, entryOk_mono sc l i _ h2, entryOk_new sc l i, entryOk_mono sc l i _ h3⟩
        rw [sortedScores_append, ← hkey, if_pos hc2, if_pos hc1, if_neg hc0]
    · by_cases hc01 : oLt tp.t1.score tp.t0.score
      · rw [if_pos hc2, if_neg hc1, if_pos hc01]
        refine ⟨?_, entryOk_mono sc l i _ h3, entryOk_mono sc l i _ h2, entryOk_new sc l i⟩
        rw [sortedScores_append, ← hkey, if_pos hc2, if_neg hc1, if_pos hc01]
      · rw [if_pos hc2, if_neg hc1, if_neg hc01]
        refine ⟨?_, entryOk_mono sc l i _ h2, entryOk_mono sc l i _ h3, entryOk_new sc l i⟩
        rw [sortedScores_append, ← hkey, if_pos hc2, if_neg hc1, if_neg hc01]
  · rw [if_neg hc2]
    refine ⟨?_, entryOk_mono sc l i _ h2, entryOk_mono sc l i _ h3, entryOk_mono sc l i _ h4⟩
    rw [sortedScores_append, ← hkey, if_neg hc2]

lemma topInv_foldl (sc : ℕ → ℝ) :
    ∀ (l' l : List ℕ) (tp : Top3), TopInv sc l tp →
      TopInv sc (l ++ l') (l'.foldl (topStep sc) tp)
  | [], l, tp, h => by simpa using h
  | x :: xs, l, tp, h => by
    have hstep := topInv_step sc l tp x h
    have hrec := topInv_foldl sc xs (l ++ [x]) _ hstep
    simpa [List.append_assoc] using hrec

lemma topScan_inv (sc : ℕ → ℝ) (n : ℕ) :
    TopInv sc (List.range n) (topScan sc n) := by
  have h := topInv_foldl sc (List.range n) [] _ (topInv_init sc)
  simpa [topScan] using h

end Matcher

namespace Matcher

/-- **C7.** For at least 4 target and 4 grid samples, `findMatch` scores every
start position by the ensemble sum over the 4 offsets (full-resolution 1-NCC,
downsampled 1-NCC, and half the binary Hamming fraction), returns a position
with minimal score together with that score, tracks the three lowest scores
in order with their positions, and reports confidence
`min(1, (secondBest - best)/secondBest)`, or 0 when the two best scores tie. -/
theorem c7_pixel_ensemble (tc gc : List (List ℕ)) (ht : 4 ≤ tc.length) (hg : 4 ≤ gc.length) :
    ∃ r, findMatch tc gc = some r ∧
      (∀ p, scoreAt tc gc p =
        ∑ t ∈ Finset.range 4,
          ((1 - ncc (tc.getD t []) (gc.getD ((p + t) % gc.length) [])) +
            (1 - ncc (downsample2x (tc.getD t []))
              (downsample2x (gc.getD ((p + t) % gc.length) []))) +
            (1/2) * ((hammingDist (toBinary (tc.getD t []))
              (toBinary (gc.getD ((p + t) % gc.length) [])) : ℚ) : ℝ))) ∧
      r.position < gc.length ∧
      r.score = some (scoreAt tc gc r.position) ∧
      (∀ p, p < gc.length → scoreAt tc gc r.position ≤ scoreAt tc gc p) ∧
      r.top3.map (fun e => e.score) =
        ((sortedScores (scoreAt tc gc) (List.range gc.length)).take 3).map some ∧
      (∀ e ∈ r.top3, e.pos < gc.length ∧ e.score = some (scoreAt tc gc e.pos)) ∧
      (∀ s0 s1 rest, (sortedScores (scoreAt tc gc) (List.range gc.length)).take 3 =
          s0 :: s1 :: rest →
        (s0 = s1 → r.confidence = 0) ∧ (s0 ≠ s1 → r.confidence = min 1 ((s1 - s0) / s1))) := by
  have hguard : ¬(tc.length < 4 ∨ gc.length < 4) := by omega
  unfold findMatch
  rw [if_neg hguard]
  have inv := topScan_inv (scoreAt tc gc) gc.length
  have hlen : (sortedScores (scoreAt tc gc) (List.range gc.length)).length = gc.length := by
    unfold sortedScores
    rw [(List.perm_insertionSort _ _).length_eq, List.length_map, List.length_range]
  rcases hT : topScan (scoreAt tc gc) gc.length with ⟨t0e, t1e, t2e⟩
  rw [hT] at inv
  obtain ⟨h1, h2, h3, h4⟩ := inv
  dsimp only at h1 h2 h3 h4 ⊢
  have hsorted := sortedScores_sorted (scoreAt tc gc) (List.range gc.length)
  have hmem0 : ∀ p, p < gc.length →
      scoreAt tc gc p ∈ sortedScores (scoreAt tc gc) (List.range gc.length) := by
    intro p hp
    unfold sortedScores
    rw [(List.perm_insertionSort _ _).mem_iff]
    exact List.mem_map_of_mem _ (List.mem_range.mpr hp)
  rcases hS : sortedScores (scoreAt tc gc) (List.range gc.length)
    with _ | ⟨s0, _ | ⟨s1, _ | ⟨s2, Srest⟩⟩⟩
  · rw [hS] at hlen
    simp at hlen
    omega
  · rw [hS] at hlen
    simp at hlen
    omega
  · rw [hS] at hlen
    simp at hlen
    omega
  · rw [hS] at h1 hsorted
    simp only [List.take, pad3, List.map, List.length, List.replicate, List.append_nil,
      List.cons.injEq, and_true] at h1
    obtain ⟨e0, e1, e2⟩ := h1
    have hs01 : s0 ≤ s1 := (List.sorted_cons.mp hsorted).1 s1 (by simp)
    have hmin : ∀ p, p < gc.length → s0 ≤ scoreAt tc gc p := by
      intro p hp
      have hmem := hmem0 p hp
      rw [hS] at hmem
      rcases List.mem_cons.mp hmem with he | hmem2
      · exact le_of_eq he.symm
      · exact (List.sorted_cons.mp hsorted).1 _ hmem2
    obtain ⟨hp0mem, hs0v⟩ := h2 s0 e0
    obtain ⟨hp1mem, hs1v⟩ := h3 s1 e1
    obtain ⟨hp2mem, hs2v⟩ := h4 s2 e2
    refine ⟨_, rfl, ?_, ?_, ?_, ?_, ?_, ?_, ?_⟩
    · intro p
      rw [scoreAt_eq_sum, min_eq_left ht]
      exact Finset.sum_congr rfl fun t _ => by ring
    · exact List.mem_range.mp hp0mem
    · show t0e.score = some (scoreAt tc gc t0e.pos)
      rw [e0, hs0v]
    · intro p hp
      show scoreAt tc gc t0e.pos ≤ scoreAt tc gc p
      rw [← hs0v]
      exact hmin p hp
    · dsimp only
      simp [e0, e1, e2]
    · intro e he
      dsimp only at he
      simp only [List.map, List.mem_cons, List.not_mem_nil, or_false] at he
      rcases he with he | he | he
      · subst he
        exact ⟨List.mem_range.mp hp0mem, by dsimp only; rw [e0, hs0v]⟩
      · subst he
        exact ⟨List.mem_range.mp hp1mem, by dsimp only; rw [e1, hs1v]⟩
      · subst he
        exact ⟨List.mem_range.mp hp2mem, by dsimp only; rw [e2, hs2v]⟩
    · intro s0' s1' rest' htake
      have htake2 : s0 = s0' ∧ s1 = s1' ∧ [s2] = rest' := by
        simpa using htake
      obtain ⟨rfl, rfl, -⟩ := htake2
      constructor
      · intro heq
        dsimp only
        rw [e0, e1]
        show (if 0 < s1 then min 1 ((s1 - s0) / s1) else 0) = 0
        subst heq
        by_cases h0 : 0 < s0
        · rw [if_pos h0]
          simp
        · rw [if_neg h0]
      · intro hne
        have hlt : s0 < s1 := lt_of_le_of_ne hs01 hne
        have h0le : 0 ≤ s0 := hs0v ▸ scoreAt_nonneg tc gc t0e.pos
        have hpos : 0 < s1 := lt_of_le_of_lt h0le hlt
        dsimp only
        rw [e0, e1]
        show (if 0 < s1 then min 1 ((s1 - s0) / s1) else 0) = min 1 ((s1 - s0) / s1)
        rw [if_pos hpos]

end Matcher

namespace Matcher

/-- Witness for C7 at a concrete input: four empty target cells against four
empty grid cells. -/
theorem c7_witness :
    ∃ r, findMatch [[], [], [], []] [[], [], [], []] = some r ∧
      r.position < 4 ∧
      r.score = some (scoreAt [[], [], [], []] [[], [], [], []] r.position) := by
  obtain ⟨r, hr, -, hpos, hscore, -, -, -, -⟩ :=
    c7_pixel_ensemble [[], [], [], []] [[], [], [], []] (by decide) (by decide)
  exact ⟨r, hr, hpos, hscore⟩

end Matcher
